import Mathlib

/-!
Verification of the `StringLookup` preprocessing layer
(`keras_core/layers/preprocessing/string_lookup.py`) and the vocabulary
encoder contract it exposes.

The repository's `StringLookup` class is a thin wrapper delegating every
substantive operation (vocabulary construction, frequency counting,
OOV hashing, the output encodings) to a wrapped external implementation
that is not part of the repository's sources; only the wrapper, its
docstring contract, and the `__init__` validation logic are present.
Consequently the encoder semantics below are modelled from the
specification's description of the `VocabularyEncoder` contract, while
`stringLookupInit` is embedded directly from the wrapper's `__init__`.
-/

namespace VocabEncoder

/-- Output modes of the encoder: `int`, `one_hot`, `multi_hot`, `count`,
`tf_idf`. -/
inductive OutputMode where
  | int
  | one_hot
  | multi_hot
  | count
  | tf_idf
  deriving DecidableEq, Repr

/-- Modelled from the spec: errors surfaced by the encoder — `ConfigError`
for invalid parameter combinations, `LookupError` for an OOV token with zero
OOV capacity or an invalid inverse index, `StateError` for operations that
need a vocabulary that does not yet exist. -/
inductive EncError where
  | configError
  | lookupError
  | stateError
  deriving DecidableEq, Repr

/-- Modelled from the spec: construction parameters of the
`VocabularyEncoder` (`max_tokens`, `num_oov_indices`, `mask_token`,
`oov_token`, `output_mode`, `pad_to_max_tokens`). -/
structure Config where
  maxTokens : Option Nat := none
  numOovIndices : Nat := 1
  maskToken : Option String := none
  oovToken : String := "[UNK]"
  outputMode : OutputMode := .int
  padToMaxTokens : Bool := false
  deriving DecidableEq, Repr

/-- Modelled from the spec: the mask slot exists only in `int` output mode;
for every other mode the mask token is dropped from the vocabulary
entirely. -/
def maskList (c : Config) : List String :=
  match c.maskToken with
  | some m => if c.outputMode = .int then [m] else []
  | none => []

/-- Number of reserved slots preceding the OOV slots. -/
def maskSlots (c : Config) : Nat := (maskList c).length

/-- Index of the first OOV slot: right after the mask slot (if any). -/
def oovStart (c : Config) : Nat := maskSlots c

/-- Total number of reserved slots (mask slot plus OOV slots). -/
def numReserved (c : Config) : Nat := maskSlots c + c.numOovIndices

/-- Modelled from the spec: the full finalized vocabulary — mask slot (if
any, `int` mode only), then `num_oov_indices` OOV slots, then the learned
tokens in their sorted order. -/
def fullVocab (c : Config) (tokens : List String) : List String :=
  maskList c ++ List.replicate c.numOovIndices c.oovToken ++ tokens

/-- Modelled from the spec: a stable, deterministic, platform-independent
hash for OOV bucket assignment. The spec leaves the concrete function free
but requires it to be fixed once; we use a simple polynomial rolling hash
over the characters. -/
def stableHash (s : String) : Nat :=
  s.data.foldl (fun h ch => h * 31 + ch.toNat) 7

/-- Index of the first occurrence of `t` in a list, if present. -/
def idxOfFirst (t : String) : List String → Option Nat
  | [] => none
  | x :: xs => if x = t then some 0 else (idxOfFirst t xs).map (· + 1)

/-- Modelled from the spec: `lookup(token) → index`. Exact match against
the vocabulary mapping; on a miss, `num_oov_indices == 0` fails with
`LookupError`, otherwise the token is hashed into the OOV slot range. -/
def lookup (c : Config) (tokens : List String) (t : String) :
    Except EncError Nat :=
  match idxOfFirst t (fullVocab c tokens) with
  | some i => .ok i
  | none =>
    if c.numOovIndices = 0 then .error .lookupError
    else .ok (oovStart c + stableHash t % c.numOovIndices)

/-- Modelled from the spec: the inverse (`invert=True`) mapping from
indices to tokens; out-of-range indices map to `oov_token`. -/
def inverseLookup (c : Config) (tokens : List String) (i : Nat) : String :=
  (fullVocab c tokens).getD i c.oovToken

/-- Monadic map over a list in the `Except` monad, failing on the first
error (structural recursion, so concrete runs reduce definitionally). -/
def mapExcept {α β : Type} (f : α → Except EncError β) :
    List α → Except EncError (List β)
  | [] => .ok []
  | x :: xs =>
    match f x with
    | .error e => .error e
    | .ok y =>
      match mapExcept f xs with
      | .error e => .error e
      | .ok ys => .ok (y :: ys)

/-- Modelled from the spec: `int` output mode — the batch of token rows is
mapped elementwise to vocabulary indices. -/
def intEncode (c : Config) (tokens : List String)
    (data : List (List String)) : Except EncError (List (List Nat)) :=
  mapExcept (fun row => mapExcept (lookup c tokens) row) data

/-- The `vocab_size` of the output feature axis: the effective vocabulary
length including reserved slots, or `max_tokens` when `pad_to_max_tokens`
is set. -/
def outputDepth (c : Config) (tokens : List String) : Nat :=
  if c.padToMaxTokens then
    match c.maxTokens with
    | some m => m
    | none => (fullVocab c tokens).length
  else (fullVocab c tokens).length

/-- Modelled from the spec: in non-`int` output modes, instances of the
mask token in the input are dropped. -/
def dropMask (c : Config) (sample : List String) : List String :=
  match c.maskToken with
  | some m => if c.outputMode = .int then sample else sample.filter (· ≠ m)
  | none => sample

/-- Modelled from the spec: per-sample binned counts — slot `j` of the
output holds the number of sample elements whose lookup index is `j`. -/
def binSample (c : Config) (tokens : List String) (sample : List String) :
    Except EncError (List Nat) :=
  match mapExcept (lookup c tokens) (dropMask c sample) with
  | .error e => .error e
  | .ok idxs =>
    .ok ((List.range (outputDepth c tokens)).map (fun j => idxs.count j))

/-- Modelled from the spec: `multi_hot` output — 1 if the slot's token is
present anywhere in the sample, else 0. -/
def multiHotEncode (c : Config) (tokens : List String)
    (sample : List String) : Except EncError (List ℚ) :=
  (binSample c tokens sample).map
    (fun bins => bins.map (fun n => if n = 0 then (0 : ℚ) else 1))

/-- Modelled from the spec: `count` output — the number of occurrences of
the slot's token in the sample. -/
def countEncode (c : Config) (tokens : List String)
    (sample : List String) : Except EncError (List ℚ) :=
  (binSample c tokens sample).map (fun bins => bins.map (fun n => (n : ℚ)))

/-- Modelled from the spec: the effective IDF weight vector — each OOV
slot receives the arithmetic mean of the supplied per-token weights,
followed by the supplied weights themselves. -/
def effectiveIdf (c : Config) (w : List ℚ) : List ℚ :=
  List.replicate c.numOovIndices (w.sum / (w.length : ℚ)) ++ w

/-- Modelled from the spec: `tf_idf` output — each slot holds the binned
occurrence count multiplied by the slot's effective IDF weight. -/
def tfidfEncode (c : Config) (tokens : List String) (w : List ℚ)
    (sample : List String) : Except EncError (List ℚ) :=
  (binSample c tokens sample).map
    (fun bins =>
      (List.range (outputDepth c tokens)).map
        (fun j => (bins.getD j 0 : ℚ) * (effectiveIdf c w).getD j 0))

/-- Modelled from the spec: `one_hot` output for a single input element —
a vector of length `vocab_size` with 1 at the looked-up index and 0
elsewhere. -/
def oneHotEncode (c : Config) (tokens : List String) (e : String) :
    Except EncError (List ℚ) :=
  (lookup c tokens e).map
    (fun j =>
      (List.range (outputDepth c tokens)).map
        (fun k => if k = j then (1 : ℚ) else 0))

/-- Modelled from the spec: `one_hot` mode is only valid when the trailing
input dimension is absent or of size 1. -/
def oneHotValidLastDim (d : Option Nat) : Bool :=
  match d with
  | none => true
  | some n => n == 1

/-! ### The `finalize_state` token ordering -/

/-- Lexicographic order on the character lists underlying two strings
(compared by character code). -/
def lexLe : List Char → List Char → Bool
  | [], _ => true
  | _ :: _, [] => false
  | a :: as, b :: bs =>
    if a.toNat < b.toNat then true
    else if b.toNat < a.toNat then false
    else lexLe as bs

/-- Modelled from the spec: the `finalize_state` sort key — descending
occurrence count, ties broken by descending lexicographic token order
(the lexicographically larger token sorts first). `freqLe a b` holds when
`a` sorts no later than `b`. -/
def freqLe (a b : String × Nat) : Bool :=
  decide (b.2 < a.2) || (a.2 == b.2 && lexLe b.1.data a.1.data)

/-- The frequency table sorted by the `finalize_state` order. -/
def sortCounts (counts : List (String × Nat)) : List (String × Nat) :=
  List.insertionSort (fun a b => freqLe a b = true) counts

/-- Modelled from the spec: the token order produced by `finalize_state`
from an accumulated frequency table. -/
def finalizeOrder (counts : List (String × Nat)) : List String :=
  (sortCounts counts).map Prod.fst

/-! ### The mutable encoder state and its operations -/

/-- Modelled from the spec: the encoder's mutable state — the adapt-time
frequency table, and the retained learned tokens once a vocabulary exists
(`none` before any `finalize_state`/`set_vocabulary`). -/
structure EncState where
  counts : List (String × Nat)
  tokens : Option (List String)
  deriving DecidableEq, Repr

/-- The state of a freshly constructed encoder: empty frequency table, no
vocabulary. -/
def initState : EncState := { counts := [], tokens := none }

/-- Increment the occurrence count of one token in a frequency table. -/
def incrCount : List (String × Nat) → String → List (String × Nat)
  | [], t => [(t, 1)]
  | (s, n) :: rest, t =>
    if s = t then (s, n + 1) :: rest else (s, n) :: incrCount rest t

/-- Modelled from the spec: `adapt` streams a batch of samples and
increments the per-token occurrence counts of the frequency table. -/
def updateCounts (counts : List (String × Nat))
    (data : List (List String)) : List (String × Nat) :=
  data.foldl (fun cs sample => sample.foldl incrCount cs) counts

/-- Modelled from the spec: `finalize_state` truncates the sorted tokens
to `max_tokens` minus the reserved-slot count when a cap is set. -/
def truncateTokens (c : Config) (l : List String) : List String :=
  match c.maxTokens with
  | some m => l.take (m - numReserved c)
  | none => l

/-- Modelled from the spec: the mutating operations of the encoder. -/
inductive EncOp where
  | adapt (data : List (List String))
  | finalizeState
  | setVocabulary (tokens : List String)
  deriving Repr

/-- Modelled from the spec: one mutating step. `adapt` accumulates counts;
`finalize_state` sorts and truncates the tokens and resets the table;
`set_vocabulary` installs a vocabulary directly, enforcing the
`max_tokens` cap eagerly as a `ConfigError`. -/
def step (c : Config) (s : EncState) : EncOp → Except EncError EncState
  | .adapt data => .ok { s with counts := updateCounts s.counts data }
  | .finalizeState =>
    .ok { counts := [],
          tokens := some (truncateTokens c (finalizeOrder s.counts)) }
  | .setVocabulary ts =>
    match c.maxTokens with
    | some m =>
      if numReserved c + ts.length ≤ m then .ok { s with tokens := some ts }
      else .error .configError
    | none => .ok { s with tokens := some ts }

/-- Run a sequence of mutating operations from a state. -/
def runOps (c : Config) (s : EncState) :
    List EncOp → Except EncError EncState
  | [] => .ok s
  | op :: ops =>
    match step c s op with
    | .error e => .error e
    | .ok s' => runOps c s' ops

/-- The `vocabulary_size()` accessor: reserved slots plus retained tokens;
it is `none` while no vocabulary exists yet (`StateError` territory). -/
def vocabularySize (c : Config) (s : EncState) : Option Nat :=
  s.tokens.map (fun ts => numReserved c + ts.length)

/-- A configuration with two OOV indices, as in the docstring's multiple
OOV example. -/
def twoOovConfig : Config :=
  { maxTokens := none, numOovIndices := 2, maskToken := none,
    oovToken := "[UNK]", outputMode := .int, padToMaxTokens := false }

/-- A capped adapting configuration: at most three vocabulary slots
including the single OOV slot. -/
def cappedConfig : Config :=
  { maxTokens := some 3, numOovIndices := 1, maskToken := none,
    oovToken := "[UNK]", outputMode := .int, padToMaxTokens := false }

/-- An `int`-mode configuration with a mask token and two OOV indices. -/
def maskIntConfig : Config :=
  { maxTokens := none, numOovIndices := 2, maskToken := some ("[MASK]"),
    oovToken := "[UNK]", outputMode := .int, padToMaxTokens := false }

/-- A `multi_hot`-mode configuration with a mask token and two OOV
indices. -/
def maskMultiConfig : Config :=
  { maxTokens := none, numOovIndices := 2, maskToken := some ("[MASK]"),
    oovToken := "[UNK]", outputMode := .multi_hot, padToMaxTokens := false }

/-- A `tf_idf`-mode configuration with a single OOV slot and no mask. -/
def tfidfConfig : Config :=
  { maxTokens := none, numOovIndices := 1, maskToken := none,
    oovToken := "[UNK]", outputMode := .tf_idf, padToMaxTokens := false }

/-! ### Embedding of `StringLookup.__init__` (from the source) -/

/-- Constructor arguments of the wrapper layer, as in
`StringLookup.__init__`. -/
structure StringLookupArgs where
  maxTokens : Option Nat := none
  numOovIndices : Nat := 1
  maskToken : Option String := none
  oovToken : String := "[UNK]"
  vocabulary : Option (List String) := none
  idfWeights : Option (List ℚ) := none
  invert : Bool := false
  outputMode : OutputMode := .int
  padToMaxTokens : Bool := false
  sparse : Bool := false
  deriving DecidableEq, Repr

/-- Error raised by `StringLookup.__init__`. -/
inductive InitError where
  | valueError
  deriving DecidableEq, Repr

/-- Embeds `StringLookup.__init__`: before constructing (and handing the
vocabulary to) the wrapped layer, it raises `ValueError` when `sparse` is
set and the active backend is not TensorFlow; otherwise the wrapped layer
is constructed with the given arguments. -/
def stringLookupInit (backendName : String) (args : StringLookupArgs) :
    Except InitError StringLookupArgs :=
  if args.sparse = true ∧ backendName ≠ "tensorflow" then
    .error .valueError
  else
    .ok args

end VocabEncoder

namespace VocabEncoder

/-- The configuration of the docstring example: vocabulary supplied, one
OOV index, no mask token, `int` output. -/
def exampleConfig : Config :=
  { maxTokens := none, numOovIndices := 1, maskToken := none,
    oovToken := "[UNK]", outputMode := .int, padToMaxTokens := false }

/-- Claim C1: with vocabulary `["a","b","c","d"]`, `num_oov_indices = 1`,
`int` output mode and no mask token, the batch
`[["a","c","d"],["d","z","b"]]` encodes to `[[1,3,4],[4,0,2]]`: each
in-vocabulary token maps to its vocabulary position offset by the single
OOV slot, and the unknown token `"z"` maps to index 0. -/
theorem stringLookup_int_example :
    intEncode exampleConfig ["a", "b", "c", "d"]
      [["a", "c", "d"], ["d", "z", "b"]] = .ok [[1, 3, 4], [4, 0, 2]] := by
  rfl

/-- Claim C10: constructing a `StringLookup` with `sparse=True` raises
`ValueError` at construction time whenever the active backend is not
TensorFlow, regardless of every other constructor argument (in particular
before any vocabulary handling: no layer is ever constructed). -/
theorem sparse_requires_tensorflow (backendName : String)
    (args : StringLookupArgs) (hs : args.sparse = true)
    (hb : backendName ≠ "tensorflow") :
    stringLookupInit backendName args = .error .valueError := by
  simp [stringLookupInit, hs, hb]

/-- Witness for C10: the torch backend with `sparse=True` and a supplied
vocabulary is rejected. -/
theorem sparse_requires_tensorflow_witness :
    stringLookupInit ("torch")
        { vocabulary := some ["a", "b"], sparse := true } =
      .error .valueError :=
  sparse_requires_tensorflow ("torch")
    { vocabulary := some ["a", "b"], sparse := true } rfl (by decide)

/-! ### Properties of `idxOfFirst` -/

theorem idxOfFirst_eq_none {t : String} :
    ∀ {l : List String}, idxOfFirst t l = none ↔ t ∉ l := by
  intro l
  induction l with
  | nil => simp [idxOfFirst]
  | cons x xs ih =>
    by_cases hx : x = t
    · simp [idxOfFirst, hx]
    · have hx' : ¬t = x := fun h => hx h.symm
      simp [idxOfFirst, hx, Option.map_eq_none', ih, hx']

theorem idxOfFirst_lt {t : String} :
    ∀ {l : List String} {k : Nat}, idxOfFirst t l = some k → k < l.length := by
  intro l
  induction l with
  | nil => intro k h; simp [idxOfFirst] at h
  | cons x xs ih =>
    intro k h
    rw [idxOfFirst] at h
    by_cases hx : x = t
    · rw [if_pos hx] at h
      injection h with h'
      simp only [List.length_cons]
      omega
    · rw [if_neg hx] at h
      rcases Option.map_eq_some'.mp h with ⟨k', hk', hkk⟩
      have := ih hk'
      simp only [List.length_cons]
      omega

theorem idxOfFirst_getD {t : String} (d : String) :
    ∀ {l : List String} {k : Nat}, idxOfFirst t l = some k → l.getD k d = t := by
  intro l
  induction l with
  | nil => intro k h; simp [idxOfFirst] at h
  | cons x xs ih =>
    intro k h
    rw [idxOfFirst] at h
    by_cases hx : x = t
    · rw [if_pos hx] at h
      injection h with h'
      subst h'
      simpa using hx
    · rw [if_neg hx] at h
      rcases Option.map_eq_some'.mp h with ⟨k', hk', hkk⟩
      subst hkk
      simpa using ih hk'

theorem idxOfFirst_append {t : String} {l₁ l₂ : List String} (h : t ∉ l₁) :
    idxOfFirst t (l₁ ++ l₂) = (idxOfFirst t l₂).map (· + l₁.length) := by
  induction l₁ with
  | nil => cases hx : idxOfFirst t l₂ <;> simp [hx]
  | cons x xs ih =>
    have hx : x ≠ t := fun hxt => h (hxt ▸ List.mem_cons_self x xs)
    have hxs : t ∉ xs := fun hm => h (List.mem_cons_of_mem x hm)
    rw [List.cons_append]
    simp only [idxOfFirst, hx, if_false, ih hxs]
    cases hy : idxOfFirst t l₂ <;> simp [hy]
    omega

theorem idxOfFirst_of_nodup :
    ∀ {l : List String}, l.Nodup → ∀ {k : Nat} (h : k < l.length),
      idxOfFirst (l.get ⟨k, h⟩) l = some k := by
  intro l
  induction l with
  | nil => intro _ k h; simp at h
  | cons x xs ih =>
    intro hnd k h
    have hx : x ∉ xs := (List.nodup_cons.mp hnd).1
    have hxs : xs.Nodup := (List.nodup_cons.mp hnd).2
    match k with
    | 0 =>
      show idxOfFirst x (x :: xs) = some 0
      simp [idxOfFirst]
    | k + 1 =>
      have hk : k < xs.length := by simpa using h
      have ht : (x :: xs).get ⟨k + 1, h⟩ = xs.get ⟨k, hk⟩ := rfl
      rw [ht]
      have hne : x ≠ xs.get ⟨k, hk⟩ := by
        intro hx'
        exact hx (hx' ▸ xs.get_mem k hk)
      show (if x = xs.get ⟨k, hk⟩ then some 0
          else (idxOfFirst (xs.get ⟨k, hk⟩) xs).map (· + 1)) = some (k + 1)
      rw [if_neg hne, ih hxs hk]
      rfl

/-! ### Properties of `lookup` and `mapExcept` -/

theorem lookup_oov {c : Config} {tokens : List String} {t : String}
    (ht : t ∉ fullVocab c tokens) (h0 : c.numOovIndices ≠ 0) :
    lookup c tokens t = .ok (oovStart c + stableHash t % c.numOovIndices) := by
  rw [lookup, idxOfFirst_eq_none.mpr ht]
  simp [h0]

theorem lookup_error_eq {c : Config} {tokens : List String} {t : String}
    {e : EncError} (h : lookup c tokens t = .error e) : e = .lookupError := by
  rw [lookup] at h
  cases hidx : idxOfFirst t (fullVocab c tokens) with
  | some i => rw [hidx] at h; simp at h
  | none =>
    rw [hidx] at h
    by_cases h0 : c.numOovIndices = 0
    · simp [h0] at h
      exact h.symm
    · simp [h0] at h

theorem mapExcept_ok_forall {α β : Type} {f : α → Except EncError β} :
    ∀ {l : List α} {ys : List β}, mapExcept f l = .ok ys →
      ∀ x ∈ l, ∃ y, f x = .ok y := by
  intro l
  induction l with
  | nil => intro ys _ x hx; simp at hx
  | cons a as ih =>
    intro ys h x hx
    cases hfa : f a with
    | error e => simp [mapExcept, hfa] at h
    | ok y =>
      cases hrest : mapExcept f as with
      | error e => simp [mapExcept, hfa, hrest] at h
      | ok ys' =>
        rcases List.mem_cons.mp hx with rfl | hx'
        · exact ⟨y, hfa⟩
        · exact ih hrest x hx'

theorem mapExcept_error_exists {α β : Type} {f : α → Except EncError β} :
    ∀ {l : List α} {e : EncError}, mapExcept f l = .error e →
      ∃ x ∈ l, f x = .error e := by
  intro l
  induction l with
  | nil => intro e h; simp [mapExcept] at h
  | cons a as ih =>
    intro e h
    cases hfa : f a with
    | error e' =>
      simp [mapExcept, hfa] at h
      exact ⟨a, List.mem_cons_self a as, by rw [hfa, h]⟩
    | ok y =>
      cases hrest : mapExcept f as with
      | error e' =>
        simp [mapExcept, hfa, hrest] at h
        obtain ⟨x, hx, hfx⟩ :=
          ih (show mapExcept f as = .error e by rw [hrest, h])
        exact ⟨x, List.mem_cons_of_mem a hx, hfx⟩
      | ok ys' => simp [mapExcept, hfa, hrest] at h

/-! ### List indexing helpers -/

theorem getElem?_replicate_append {α : Type} (a : α) (l : List α) :
    ∀ {n j : Nat}, j < n → (List.replicate n a ++ l)[j]? = some a := by
  intro n
  induction n with
  | zero => intro j h; omega
  | succ n ih =>
    intro j h
    rw [List.replicate_succ, List.cons_append]
    match j with
    | 0 => exact List.getElem?_cons_zero
    | j + 1 =>
      rw [List.getElem?_cons_succ]
      exact ih (by omega)

theorem getElem?_replicate_append_right {α : Type} (a : α) (l : List α) :
    ∀ (n i : Nat), (List.replicate n a ++ l)[n + i]? = l[i]? := by
  intro n
  induction n with
  | zero => intro i; simp
  | succ n ih =>
    intro i
    rw [List.replicate_succ, List.cons_append,
      show n + 1 + i = (n + i) + 1 by omega, List.getElem?_cons_succ]
    exact ih i

/-! ### One-hot encoding -/

theorem getD_range_map {β : Type} (f : Nat → β) (b : β) :
    ∀ {d k : Nat}, k < d → ((List.range d).map f).getD k b = f k := by
  intro d k h
  rw [List.getD_eq_getElem?_getD, List.getElem?_map, List.getElem?_range h]
  rfl

/-- Claim C7: in `one_hot` output mode the output for one element has
length `vocab_size`, with value 1 at the looked-up token's index and 0 at
every other index; the mode is only valid when the trailing input
dimension is absent or of size 1. -/
theorem one_hot_encoding (c : Config) (tokens : List String) (e : String)
    (j : Nat) (out : List ℚ) (hpad : c.padToMaxTokens = false)
    (hlk : lookup c tokens e = .ok j)
    (hout : oneHotEncode c tokens e = .ok out) :
    out.length = (fullVocab c tokens).length ∧
      (∀ k, k < out.length →
        out.getD k 0 = if k = j then (1 : ℚ) else 0) ∧
      (∀ d : Option Nat,
        oneHotValidLastDim d = true ↔ d = none ∨ d = some 1) := by
  rw [oneHotEncode, hlk] at hout
  simp only [Except.map, Option.map] at hout
  have hdepth : outputDepth c tokens = (fullVocab c tokens).length := by
    rw [outputDepth, hpad]
    simp
  injection hout with hout
  subst hout
  refine ⟨by simp [hdepth], ?_, ?_⟩
  · intro k hk
    have hk' : k < outputDepth c tokens := by simpa using hk
    exact getD_range_map _ _ hk'
  · intro d
    cases d with
    | none => simp [oneHotValidLastDim]
    | some n => simp [oneHotValidLastDim]

/-- Witness for C7: encoding `"b"` against vocabulary `["a","b","c","d"]`
yields the vector with a single 1 at index 2. -/
theorem one_hot_encoding_witness :
    ([0, 0, 1, 0, 0] : List ℚ).length =
        (fullVocab exampleConfig ["a", "b", "c", "d"]).length ∧
      (∀ k, k < ([0, 0, 1, 0, 0] : List ℚ).length →
        ([0, 0, 1, 0, 0] : List ℚ).getD k 0 =
          if k = 2 then (1 : ℚ) else 0) ∧
      (∀ d : Option Nat,
        oneHotValidLastDim d = true ↔ d = none ∨ d = some 1) :=
  one_hot_encoding exampleConfig ["a", "b", "c", "d"] "b" 2 [0, 0, 1, 0, 0]
    rfl (by rfl) (by rfl)

/-! ### Properties of the `finalize_state` order -/

theorem lexLe_total : ∀ x y : List Char, lexLe x y = true ∨ lexLe y x = true := by
  intro x
  induction x with
  | nil => intro y; left; rfl
  | cons a as ih =>
    intro y
    cases y with
    | nil => right; rfl
    | cons b bs =>
      by_cases h1 : a.toNat < b.toNat
      · left; simp [lexLe, h1]
      · by_cases h2 : b.toNat < a.toNat
        · right; simp [lexLe, h2]
        · rcases ih bs with h | h
          · left; simp [lexLe, h1, h2, h]
          · right; simp [lexLe, h1, h2, h]

theorem lexLe_trans :
    ∀ x y z : List Char, lexLe x y = true → lexLe y z = true →
      lexLe x z = true := by
  intro x
  induction x with
  | nil => intro y z _ _; rfl
  | cons a as ih =>
    intro y z hxy hyz
    cases y with
    | nil => simp [lexLe] at hxy
    | cons b bs =>
      cases z with
      | nil => simp [lexLe] at hyz
      | cons c cs =>
        by_cases hab : a.toNat < b.toNat
        · by_cases hbc : b.toNat < c.toNat
          · simp [lexLe, show a.toNat < c.toNat by omega]
          · by_cases hcb : c.toNat < b.toNat
            · simp [lexLe, hbc, hcb] at hyz
            · simp [lexLe, show a.toNat < c.toNat by omega]
        · by_cases hba : b.toNat < a.toNat
          · simp [lexLe, hab, hba] at hxy
          · simp [lexLe, hab, hba] at hxy
            by_cases hbc : b.toNat < c.toNat
            · simp [lexLe, show a.toNat < c.toNat by omega]
            · by_cases hcb : c.toNat < b.toNat
              · simp [lexLe, hbc, hcb] at hyz
              · simp [lexLe, hbc, hcb] at hyz
                simp [lexLe, show ¬a.toNat < c.toNat by omega,
                  show ¬c.toNat < a.toNat by omega]
                exact ih bs cs hxy hyz

theorem freqLe_total (a b : String × Nat) :
    freqLe a b = true ∨ freqLe b a = true := by
  by_cases h1 : b.2 < a.2
  · left; simp [freqLe, h1]
  · by_cases h2 : a.2 < b.2
    · right; simp [freqLe, h2]
    · have he : a.2 = b.2 := by omega
      rcases lexLe_total b.1.data a.1.data with h | h
      · left; simp [freqLe, he, h]
      · right; simp [freqLe, he, h]

theorem freqLe_trans (a b c : String × Nat) :
    freqLe a b = true → freqLe b c = true → freqLe a c = true := by
  simp only [freqLe, Bool.or_eq_true, decide_eq_true_eq, Bool.and_eq_true,
    beq_iff_eq]
  intro hab hbc
  rcases hab with h1 | ⟨he1, hl1⟩
  · rcases hbc with h2 | ⟨he2, hl2⟩
    · left; omega
    · left; omega
  · rcases hbc with h2 | ⟨he2, hl2⟩
    · left; omega
    · right; exact ⟨he1.trans he2, lexLe_trans _ _ _ hl2 hl1⟩

instance : IsTotal (String × Nat) (fun a b => freqLe a b = true) :=
  ⟨freqLe_total⟩

instance : IsTrans (String × Nat) (fun a b => freqLe a b = true) :=
  ⟨freqLe_trans⟩

/-- Claim C2: for every accumulated frequency table, `finalize_state`
orders the retained tokens by descending occurrence count, with ties
broken by descending lexicographic token order, so that counts
`{a:3, b:3, c:1}` produce the token order `[b, a, c]`. -/
theorem finalize_order_sorted :
    (∀ counts : List (String × Nat),
        (finalizeOrder counts).Perm (counts.map Prod.fst) ∧
          List.Pairwise
            (fun a b : String × Nat =>
              b.2 < a.2 ∨ (a.2 = b.2 ∧ lexLe b.1.data a.1.data = true))
            (sortCounts counts)) ∧
      finalizeOrder [("a", 3), ("b", 3), ("c", 1)] = ["b", "a", "c"] := by
  constructor
  · intro counts
    constructor
    · exact (List.perm_insertionSort _ counts).map Prod.fst
    · have hs :=
        List.sorted_insertionSort
          (fun a b : String × Nat => freqLe a b = true) counts
      refine List.Pairwise.imp ?_ hs
      intro a b hab
      simpa only [freqLe, Bool.or_eq_true, decide_eq_true_eq,
        Bool.and_eq_true, beq_iff_eq] using hab
  · decide

/-! ### The TF-IDF encoding -/

/-- With no mask token, a unique vocabulary and the OOV token outside it,
a lookup returns the slot of the `i`-th token exactly for that token. -/
theorem lookup_slot_iff (c : Config) (tokens : List String)
    (hmask : c.maskToken = none) (hnd : tokens.Nodup)
    (hoov : c.oovToken ∉ tokens) {i : Nat} (hi : i < tokens.length)
    (s : String) :
    lookup c tokens s = .ok (c.numOovIndices + i) ↔
      s = tokens.get ⟨i, hi⟩ := by
  have hmaskl : maskList c = [] := by rw [maskList, hmask]
  have hfv : fullVocab c tokens =
      List.replicate c.numOovIndices c.oovToken ++ tokens := by
    rw [fullVocab, hmaskl, List.nil_append]
  have hos : oovStart c = 0 := by
    rw [oovStart, maskSlots, hmaskl]
    rfl
  constructor
  · intro h
    rw [lookup] at h
    cases hx : idxOfFirst s (fullVocab c tokens) with
    | some k =>
      rw [hx] at h
      injection h with h
      subst h
      have hget := idxOfFirst_getD c.oovToken hx
      rw [hfv, List.getD_eq_getElem?_getD, getElem?_replicate_append_right,
        ← List.getD_eq_getElem?_getD] at hget
      rw [← hget, List.getD_eq_getElem?_getD, List.getElem?_eq_getElem hi]
      rfl
    | none =>
      rw [hx] at h
      by_cases h0 : c.numOovIndices = 0
      · rw [if_pos h0] at h
        exact absurd h (by simp)
      · rw [if_neg h0] at h
        injection h with h
        have hlt := Nat.mod_lt (stableHash s) (Nat.pos_of_ne_zero h0)
        rw [hos] at h
        omega
  · intro h
    subst h
    have hs : tokens.get ⟨i, hi⟩ ∈ tokens := tokens.get_mem i hi
    have hnotrep :
        tokens.get ⟨i, hi⟩ ∉ List.replicate c.numOovIndices c.oovToken := by
      intro hmem
      exact hoov (List.eq_of_mem_replicate hmem ▸ hs)
    rw [lookup, hfv, idxOfFirst_append hnotrep, idxOfFirst_of_nodup hnd hi]
    simp [Nat.add_comm]

/-- Mapping a sample through `lookup` preserves, in slot `numOov + i`, the
occurrence count of the `i`-th vocabulary token. -/
theorem mapExcept_count (c : Config) (tokens : List String)
    (hmask : c.maskToken = none) (hnd : tokens.Nodup)
    (hoov : c.oovToken ∉ tokens) {i : Nat} (hi : i < tokens.length) :
    ∀ (sample : List String) (idxs : List Nat),
      mapExcept (lookup c tokens) sample = .ok idxs →
      idxs.count (c.numOovIndices + i) =
        sample.count (tokens.get ⟨i, hi⟩) := by
  intro sample
  induction sample with
  | nil =>
    intro idxs h
    rw [mapExcept] at h
    injection h with h
    subst h
    simp
  | cons a as ih =>
    intro idxs h
    cases hfa : lookup c tokens a with
    | error e => simp [mapExcept, hfa] at h
    | ok y =>
      cases hrest : mapExcept (lookup c tokens) as with
      | error e => simp [mapExcept, hfa, hrest] at h
      | ok ys =>
        simp only [mapExcept, hfa, hrest] at h
        injection h with h
        subst h
        rw [List.count_cons, List.count_cons, ih ys hrest]
        congr 1
        by_cases hy : y = c.numOovIndices + i
        · subst hy
          have ha : a = tokens.get ⟨i, hi⟩ :=
            (lookup_slot_iff c tokens hmask hnd hoov hi a).mp hfa
          simp [ha]
        · have ha : a ≠ tokens.get ⟨i, hi⟩ := by
            intro he
            refine hy ?_
            have hok := (lookup_slot_iff c tokens hmask hnd hoov hi a).mpr he
            rw [hfa] at hok
            exact Except.ok.inj hok
          have ha2 : ¬a = tokens[i] := by
            simpa [List.get_eq_getElem] using ha
          simp [hy, ha2]

/-- Claim C6: in `tf_idf` mode with a set vocabulary and idf weights, the
output value at each vocabulary slot is the occurrence count of that
slot's token in the sample times the slot's idf weight, and each OOV slot
carries the arithmetic mean of the supplied per-token weights. -/
theorem tf_idf_encoding (c : Config) (tokens : List String) (w : List ℚ)
    (sample : List String) (out : List ℚ) (bins : List Nat)
    (hmode : c.outputMode = .tf_idf)
    (hmask : c.maskToken = none) (hpad : c.padToMaxTokens = false)
    (hnd : tokens.Nodup) (hoov : c.oovToken ∉ tokens)
    (hw : w.length = tokens.length)
    (hbins : binSample c tokens sample = .ok bins)
    (hout : tfidfEncode c tokens w sample = .ok out) :
    (∀ i, i < tokens.length →
        out.getD (c.numOovIndices + i) 0 =
          (sample.count (tokens.getD i c.oovToken) : ℚ) * w.getD i 0) ∧
      ∀ j, j < c.numOovIndices →
        (effectiveIdf c w).getD j 0 = w.sum / (w.length : ℚ) ∧
          out.getD j 0 = (bins.getD j 0 : ℚ) * (w.sum / (w.length : ℚ)) := by
  have hmaskl : maskList c = [] := by rw [maskList, hmask]
  have hfv : fullVocab c tokens =
      List.replicate c.numOovIndices c.oovToken ++ tokens := by
    rw [fullVocab, hmaskl, List.nil_append]
  have hdrop : dropMask c sample = sample := by rw [dropMask, hmask]
  have hdepth : outputDepth c tokens = c.numOovIndices + tokens.length := by
    rw [outputDepth, hpad]
    simp [hfv]
  rw [tfidfEncode, hbins] at hout
  simp only [Except.map] at hout
  injection hout with hout
  subst hout
  rw [binSample, hdrop] at hbins
  cases hme : mapExcept (lookup c tokens) sample with
  | error e => rw [hme] at hbins; exact absurd hbins (by simp)
  | ok idxs =>
    rw [hme] at hbins
    injection hbins with hbins
    constructor
    · intro i hi
      have hii : c.numOovIndices + i < outputDepth c tokens := by
        rw [hdepth]; omega
      rw [getD_range_map _ _ hii]
      have hbv : bins.getD (c.numOovIndices + i) 0 =
          idxs.count (c.numOovIndices + i) := by
        rw [← hbins, getD_range_map _ _ hii]
      have hcnt := mapExcept_count c tokens hmask hnd hoov hi sample idxs hme
      have heff : (effectiveIdf c w).getD (c.numOovIndices + i) 0 =
          w.getD i 0 := by
        rw [effectiveIdf, List.getD_eq_getElem?_getD,
          getElem?_replicate_append_right, ← List.getD_eq_getElem?_getD]
      have hgd : tokens.getD i c.oovToken = tokens.get ⟨i, hi⟩ := by
        rw [List.getD_eq_getElem?_getD, List.getElem?_eq_getElem hi]
        rfl
      rw [hbv, hcnt, heff, hgd]
    · intro j hj
      have hjd : j < outputDepth c tokens := by rw [hdepth]; omega
      have heffj : (effectiveIdf c w).getD j 0 = w.sum / (w.length : ℚ) := by
        rw [effectiveIdf, List.getD_eq_getElem?_getD,
          getElem?_replicate_append _ _ hj]
        rfl
      refine ⟨heffj, ?_⟩
      rw [getD_range_map _ _ hjd, heffj]

/-- Witness for C6: the docstring example — vocabulary `["a","b","c","d"]`,
idf weights `[0.25,0.75,0.6,0.4]`, sample `["a","c","d","d"]` — gives
`0.8 = 2 * 0.4` at the slot of `"d"` and mean weight `0.5` at the OOV
slot. -/
theorem tf_idf_encoding_witness :
    (([0, 1/4, 0, 3/5, 4/5] : List ℚ).getD (tfidfConfig.numOovIndices + 3) 0 =
        ((["a", "c", "d", "d"] : List String).count
            ((["a", "b", "c", "d"] : List String).getD 3
              tfidfConfig.oovToken) : ℚ) *
          ([1/4, 3/4, 3/5, 2/5] : List ℚ).getD 3 0) ∧
      ((effectiveIdf tfidfConfig [1/4, 3/4, 3/5, 2/5]).getD 0 0 =
          ([1/4, 3/4, 3/5, 2/5] : List ℚ).sum /
            ((([1/4, 3/4, 3/5, 2/5] : List ℚ).length : Nat) : ℚ) ∧
        ([0, 1/4, 0, 3/5, 4/5] : List ℚ).getD 0 0 =
          (([0, 1, 0, 1, 2] : List Nat).getD 0 0 : ℚ) *
            (([1/4, 3/4, 3/5, 2/5] : List ℚ).sum /
              ((([1/4, 3/4, 3/5, 2/5] : List ℚ).length : Nat) : ℚ))) := by
  have h := tf_idf_encoding tfidfConfig ["a", "b", "c", "d"]
    [1/4, 3/4, 3/5, 2/5] ["a", "c", "d", "d"] [0, 1/4, 0, 3/5, 4/5]
    [0, 1, 0, 1, 2] rfl rfl rfl (by decide) (by decide) rfl
    (by rfl)
    (by
      rw [tfidfEncode,
        show binSample tfidfConfig ["a", "b", "c", "d"]
            ["a", "c", "d", "d"] = .ok [0, 1, 0, 1, 2] from rfl]
      simp only [Except.map]
      norm_num [outputDepth, fullVocab, maskList, tfidfConfig, effectiveIdf,
        List.range_succ])
  exact ⟨h.1 3 (by decide), h.2 0 (by decide)⟩

/-! ### Claims C4, C5, C8 -/

/-- Claim C4: with `num_oov_indices > 1`, looking up a token absent from
the vocabulary is deterministic — every lookup of that token returns the
same OOV slot, computed as `stable_hash(token) mod num_oov_indices` offset
into the OOV slot range. -/
theorem oov_lookup_deterministic (c : Config) (tokens : List String)
    (t : String) (h1 : 1 < c.numOovIndices)
    (h2 : t ∉ fullVocab c tokens) :
    lookup c tokens t =
        .ok (oovStart c + stableHash t % c.numOovIndices) ∧
      ∀ r₁ r₂ : Except EncError Nat,
        lookup c tokens t = r₁ → lookup c tokens t = r₂ → r₁ = r₂ := by
  refine ⟨lookup_oov h2 (by omega), ?_⟩
  intro r₁ r₂ hr₁ hr₂
  rw [← hr₁, ← hr₂]

/-- Witness for C4: the unseen token `"z"` with two OOV indices hashes to
a fixed OOV slot. -/
theorem oov_lookup_deterministic_witness :
    lookup twoOovConfig ["a", "b"] "z" =
        .ok (oovStart twoOovConfig +
          stableHash ("z") % twoOovConfig.numOovIndices) ∧
      ∀ r₁ r₂ : Except EncError Nat,
        lookup twoOovConfig ["a", "b"] "z" = r₁ →
        lookup twoOovConfig ["a", "b"] "z" = r₂ → r₁ = r₂ :=
  oov_lookup_deterministic twoOovConfig ["a", "b"] "z" (by decide) (by decide)

/-- Claim C5: for every token `t` in a finalized vocabulary, composing
forward lookup, inverse lookup and forward lookup again yields the same
index as a single forward lookup. -/
theorem lookup_roundtrip (c : Config) (tokens : List String) (t : String)
    (i : Nat) (hmem : t ∈ fullVocab c tokens)
    (hlk : lookup c tokens t = .ok i) :
    lookup c tokens (inverseLookup c tokens i) = lookup c tokens t := by
  cases hidx : idxOfFirst t (fullVocab c tokens) with
  | none => exact absurd (idxOfFirst_eq_none.mp hidx) (by simpa using hmem)
  | some k =>
    have hlk' : lookup c tokens t = .ok k := by rw [lookup, hidx]
    have hik : i = k := by
      rw [hlk'] at hlk
      exact (Except.ok.inj hlk).symm
    subst hik
    have hinv : inverseLookup c tokens i = t :=
      idxOfFirst_getD c.oovToken hidx
    rw [hinv]

/-- Witness for C5: the in-vocabulary token `"b"` round-trips through the
inverse mapping. -/
theorem lookup_roundtrip_witness :
    lookup exampleConfig ["a", "b"]
        (inverseLookup exampleConfig ["a", "b"] 2) =
      lookup exampleConfig ["a", "b"] "b" :=
  lookup_roundtrip exampleConfig ["a", "b"] "b" 2 (by decide) (by rfl)

/-- Claim C8: with `num_oov_indices = 0`, looking up a token absent from
the vocabulary fails with `LookupError`, and calling the layer (in `int`
mode) on any batch containing such a token fails with `LookupError` rather
than returning indices. -/
theorem zero_oov_lookup_error (c : Config) (tokens : List String)
    (data : List (List String)) (row : List String) (t : String)
    (h0 : c.numOovIndices = 0) (hrow : row ∈ data) (ht : t ∈ row)
    (hoov : t ∉ fullVocab c tokens) :
    lookup c tokens t = .error .lookupError ∧
      intEncode c tokens data = .error .lookupError := by
  have hl : lookup c tokens t = .error .lookupError := by
    rw [lookup, idxOfFirst_eq_none.mpr hoov]
    simp [h0]
  refine ⟨hl, ?_⟩
  cases henc : intEncode c tokens data with
  | ok yss =>
    obtain ⟨ys, hys⟩ := mapExcept_ok_forall henc row hrow
    obtain ⟨y, hy⟩ := mapExcept_ok_forall hys t ht
    rw [hl] at hy
    exact absurd hy (by simp)
  | error e =>
    obtain ⟨row', _, hrow'⟩ := mapExcept_error_exists henc
    obtain ⟨x, _, hx⟩ := mapExcept_error_exists hrow'
    rw [lookup_error_eq hx]

/-! ### Vocabulary layout helpers -/

/-- Claim C3: in `int` output mode the mask slot (when a mask token is
set) occupies index 0, the `num_oov_indices` OOV slots occupy the next
positions, and the sorted tokens fill the remaining indices; in every
non-`int` mode the mask token is dropped from the vocabulary entirely and
the OOV slots occupy the lowest indices of the feature axis. -/
theorem final_index_assignment (c : Config) (tokens : List String) :
    (∀ mt, c.outputMode = .int → c.maskToken = some mt →
        (fullVocab c tokens)[0]? = some mt ∧
          (∀ j, j < c.numOovIndices →
            (fullVocab c tokens)[1 + j]? = some c.oovToken) ∧
          (∀ i, i < tokens.length →
            (fullVocab c tokens)[1 + c.numOovIndices + i]? = tokens[i]?)) ∧
      (c.outputMode ≠ .int →
        (∀ mt, c.maskToken = some mt → mt ∉ tokens → mt ≠ c.oovToken →
            mt ∉ fullVocab c tokens) ∧
          (∀ j, j < c.numOovIndices →
            (fullVocab c tokens)[j]? = some c.oovToken) ∧
          (∀ i, i < tokens.length →
            (fullVocab c tokens)[c.numOovIndices + i]? = tokens[i]?)) := by
  constructor
  · intro mt hmode hmask
    have hfv : fullVocab c tokens =
        mt :: (List.replicate c.numOovIndices c.oovToken ++ tokens) := by
      simp [fullVocab, maskList, hmask, hmode]
    refine ⟨?_, ?_, ?_⟩
    · rw [hfv]; exact List.getElem?_cons_zero
    · intro j hj
      rw [hfv, show 1 + j = j + 1 by omega, List.getElem?_cons_succ]
      exact getElem?_replicate_append _ _ hj
    · intro i _
      rw [hfv, show 1 + c.numOovIndices + i = (c.numOovIndices + i) + 1 by
        omega, List.getElem?_cons_succ]
      exact getElem?_replicate_append_right _ _ _ _
  · intro hmode
    have hml : maskList c = [] := by
      rw [maskList]
      cases hmt : c.maskToken with
      | none => rfl
      | some mt => simp [hmode]
    have hfv : fullVocab c tokens =
        List.replicate c.numOovIndices c.oovToken ++ tokens := by
      simp [fullVocab, hml]
    refine ⟨?_, ?_, ?_⟩
    · intro mt _ hnin hne
      rw [hfv]
      intro hmem
      rcases List.mem_append.mp hmem with h | h
      · exact hne (List.eq_of_mem_replicate h)
      · exact hnin h
    · intro j hj
      rw [hfv]
      exact getElem?_replicate_append _ _ hj
    · intro i _
      rw [hfv]
      exact getElem?_replicate_append_right _ _ _ _

/-- Witness for C3: with two OOV slots, a mask token and tokens
`["a","b"]`, the `int`-mode layout is `[mask, oov, oov, a, b]` and the
`multi_hot` layout is `[oov, oov, a, b]` without the mask token. -/
theorem final_index_assignment_witness :
    ((fullVocab maskIntConfig ["a", "b"])[0]? = some ("[MASK]") ∧
        (fullVocab maskIntConfig ["a", "b"])[1 + 1]? = some ("[UNK]") ∧
        (fullVocab maskIntConfig ["a", "b"])[1 + 2 + 1]? =
          (["a", "b"] : List String)[1]?) ∧
      ("[MASK]" ∉ fullVocab maskMultiConfig ["a", "b"] ∧
        (fullVocab maskMultiConfig ["a", "b"])[0]? = some ("[UNK]") ∧
        (fullVocab maskMultiConfig ["a", "b"])[2 + 0]? =
          (["a", "b"] : List String)[0]?) := by
  have h1 := (final_index_assignment maskIntConfig ["a", "b"]).1
    ("[MASK]") rfl rfl
  have h2 := (final_index_assignment maskMultiConfig ["a", "b"]).2
    (by decide)
  exact ⟨⟨h1.1, h1.2.1 1 (by decide), h1.2.2 1 (by decide)⟩,
    h2.1 ("[MASK]") rfl (by decide) (by decide),
    h2.2.1 0 (by decide), h2.2.2 0 (by decide)⟩

/-! ### The cardinality invariant -/

theorem runOps_cap (c : Config)
    (hcap : ∀ m, c.maxTokens = some m → numReserved c < m) :
    ∀ (ops : List EncOp) (s s' : EncState),
      (∀ ts m, s.tokens = some ts → c.maxTokens = some m →
        numReserved c + ts.length ≤ m) →
      runOps c s ops = .ok s' →
      ∀ ts m, s'.tokens = some ts → c.maxTokens = some m →
        numReserved c + ts.length ≤ m := by
  intro ops
  induction ops with
  | nil =>
    intro s s' hs hrun
    rw [runOps] at hrun
    injection hrun with h
    subst h
    exact hs
  | cons op ops ih =>
    intro s s' hs hrun
    rw [runOps] at hrun
    cases hstep : step c s op with
    | error e => rw [hstep] at hrun; exact absurd hrun (by simp)
    | ok s₁ =>
      rw [hstep] at hrun
      refine ih s₁ s' ?_ hrun
      cases op with
      | adapt data =>
        rw [step] at hstep
        injection hstep with h
        intro ts m hts hm
        rw [← h] at hts
        exact hs ts m hts hm
      | finalizeState =>
        rw [step] at hstep
        injection hstep with h
        intro ts m hts hm
        rw [← h] at hts
        simp only [Option.some.injEq] at hts
        subst hts
        have hr := hcap m hm
        simp only [truncateTokens, hm, List.length_take]
        omega
      | setVocabulary ts' =>
        rw [step] at hstep
        intro ts m hts hm
        rw [hm] at hstep
        by_cases hle : numReserved c + ts'.length ≤ m
        · simp only [hle, if_true] at hstep
          injection hstep with h
          rw [← h] at hts
          simp only [Option.some.injEq] at hts
          subst hts
          exact hle
        · simp only [hle, if_false] at hstep
          exact absurd hstep (by simp)

/-- Claim C9: after any sequence of `adapt`/`finalize_state`/
`set_vocabulary` operations, `vocabulary_size()` equals
`num_oov_indices` plus one if a mask token is set plus the number of
retained learned tokens, and never exceeds `max_tokens` when
`max_tokens` is set. -/
theorem vocabulary_size_invariant (c : Config) (ops : List EncOp)
    (s : EncState) (n : Nat)
    (hmask : ∀ mt, c.maskToken = some mt → c.outputMode = .int)
    (hcap : ∀ m, c.maxTokens = some m → numReserved c < m)
    (hrun : runOps c initState ops = .ok s)
    (hsize : vocabularySize c s = some n) :
    (∃ ts, s.tokens = some ts ∧
        n = c.numOovIndices + (if c.maskToken.isSome then 1 else 0) +
          ts.length) ∧
      ∀ m, c.maxTokens = some m → n ≤ m := by
  rw [vocabularySize] at hsize
  cases hts : s.tokens with
  | none => rw [hts] at hsize; simp at hsize
  | some ts =>
    rw [hts] at hsize
    simp only [Option.map_some', Option.some.injEq] at hsize
    have hmb : maskSlots c = if c.maskToken.isSome then 1 else 0 := by
      cases hmt : c.maskToken with
      | none => simp [maskSlots, maskList, hmt]
      | some mt => simp [maskSlots, maskList, hmt, hmask mt hmt]
    refine ⟨⟨ts, rfl, ?_⟩, ?_⟩
    · rw [← hsize, numReserved, hmb]
      ring
    · intro m hm
      have hle := runOps_cap c hcap ops initState s
        (by intro ts' m' h _; simp [initState] at h) hrun ts m hts hm
      omega

/-- Witness for C9: adapting `[["a","c","d"],["d","z","b"]]` with
`max_tokens = 3` and one OOV slot retains `["d","z"]`, and the vocabulary
size 3 meets the formula and the cap. -/
theorem vocabulary_size_invariant_witness :
    (∃ ts, (⟨[], some ["d", "z"]⟩ : EncState).tokens = some ts ∧
        3 = cappedConfig.numOovIndices +
          (if cappedConfig.maskToken.isSome then 1 else 0) + ts.length) ∧
      ∀ m, cappedConfig.maxTokens = some m → 3 ≤ m :=
  vocabulary_size_invariant cappedConfig
    [.adapt [["a", "c", "d"], ["d", "z", "b"]], .finalizeState]
    ⟨[], some ["d", "z"]⟩ 3
    (fun mt h => nomatch h)
    (fun m h => by injection h with h'; subst h'; decide)
    (by rfl) (by decide)

/-- Witness for C8: a config with zero OOV capacity rejects the batch
`[["a","z"]]` containing the unknown token `"z"`. -/
theorem zero_oov_lookup_error_witness :
    lookup { numOovIndices := 0 } ["a", "b"] "z" = .error .lookupError ∧
      intEncode { numOovIndices := 0 } ["a", "b"] [["a", "z"]] =
        .error .lookupError :=
  zero_oov_lookup_error { numOovIndices := 0 } ["a", "b"] [["a", "z"]]
    ["a", "z"] "z" rfl (by decide) (by decide) (by decide)

end VocabEncoder
